import Mathlib

/-!
Verification development for the Stream2Frame frame-sampling and stitching
pipeline (`src/main.py`, `src/nvr.py`).

The definitions below are a shallow embedding of the pipeline:

* timestamps are modelled as natural numbers (seconds); the pandas
  `resample('2min')` grouping of `process_frame_data` truncates a capture
  time to 2-minute boundaries, i.e. buckets a time `t` as `t / 120`
  (the resampling origin is midnight, a multiple of 120 seconds);
* the timestamp log file handed to `process_frame_data` is modelled by
  `LogFile`: readability of the file, presence of a parsable header, presence
  of the `CTS` column, and the list of data lines (each either malformed —
  skipped by `on_bad_lines` — or carrying a CTS value that is either
  parsable or not);
* the OpenCV calls of the extractors are modelled by oracles carried in a
  `Job`: whether `cv2.VideoCapture` opens, whether a seek-and-read at a given
  frame index succeeds (`pDecode` / `fDecode`), the reported frame rate and
  total frame count, and whether the extractor raises before extracting
  anything (the only way an exception can escape, since both extractors wrap
  their decode loops in `try/except`);
* resource handling is recorded as a trace of events: opening a source video
  reader, releasing it, and releasing the camera-day output video writer.

File names for the renaming step (`rename_mp4_files`) are lists of
characters, a directory is an association list from file name to byte size,
and `Path.rename` has POSIX overwrite semantics.  The directory iteration
order of `Path.iterdir` is modelled as the listing order of the association
list, and renames act on the snapshot of names taken before the loop.
-/

/-! ## Sampler (`process_frame_data`, src/nvr.py lines 240-249) -/

/-- Length in seconds of one sampling interval: the code resamples with the
fixed frequency string `'2min'`. -/
def intervalSec : Nat := 120

/-- Bucket of a corrected capture time: `resample('2min')` groups rows by
truncating the time to 2-minute boundaries. -/
def bucketOf (t : Nat) : Nat := t / intervalSec

/-- Largest timestamp of a series (0 for the empty series); used to bound the
range of buckets that can be non-empty. -/
def maxTime (ts : List Nat) : Nat := ts.foldr max 0

/-- Buckets that contain at least one row, in ascending order: pandas emits
the resampled bins in ascending label order, and `.dropna()` removes the
empty bins. -/
def usedBuckets (ts : List Nat) : List Nat :=
  (List.range (bucketOf (maxTime ts) + 1)).filter
    (fun b => ts.any (fun t => bucketOf t == b))

/-- Position (counting from `k`) of the first element of `ts` lying in bucket
`b`. -/
def firstIdxGo (b k : Nat) : List Nat → Option Nat
  | [] => none
  | t :: rest => if bucketOf t = b then some k else firstIdxGo b (k + 1) rest

/-- Row index of the first row of the series lying in bucket `b`:
`resample('2min').first()` keeps, for every bin, the first value in row
order, and the `frame` column holds the row index. -/
def firstIdxInBucket (ts : List Nat) (b : Nat) : Option Nat := firstIdxGo b 0 ts

/-- The sampled original frame indices:
`df['frame'].resample('2min').first().dropna().tolist()` — for every
non-empty 2-minute bucket, the row index of its first row, in ascending
bucket order. -/
def sampleIndices (ts : List Nat) : List Nat :=
  (usedBuckets ts).filterMap (firstIdxInBucket ts)

/-- The corrected capture times of the sampled rows:
`[df.iloc[i].name for i in frame_numbers]` looks the sampled row indices back
up in the corrected series. -/
def sampleDates (ts : List Nat) : List Nat :=
  (sampleIndices ts).map (fun i => ts.getD i 0)

/-! ## Timestamp parser (`process_frame_data`, src/nvr.py lines 220-249) -/

/-- One data line of the timestamp log.  `pd.read_csv(..., on_bad_lines='skip')`
silently drops lines that do not tokenise (`malformed`); a tokenised line
carries a CTS field, which `pd.to_datetime` either parses (`some t`, seconds)
or fails on (`none`), the latter raising for the whole file. -/
inductive RawLine where
  | malformed
  | row (cts : Option Nat)
  deriving DecidableEq

/-- Exceptions `process_frame_data` can raise: the file cannot be read,
the file is completely empty (`EmptyDataError`), the header has no `CTS`
column (`KeyError`), or `pd.to_datetime` cannot parse a timestamp. -/
inductive PErr where
  | unreadable
  | emptyFile
  | noCTS
  | unparsable
  deriving DecidableEq

/-- A timestamp log file as seen by `process_frame_data`. -/
structure LogFile where
  readable : Bool
  hasHeader : Bool
  hasCTS : Bool
  lines : List RawLine

/-- Data rows surviving `pd.read_csv(..., skipfooter=5, on_bad_lines='skip')`:
the last five lines of the file are dropped as footer and malformed lines are
skipped. -/
def dataRows (lines : List RawLine) : List (Option Nat) :=
  (lines.take (lines.length - 5)).filterMap
    (fun l => match l with
      | .malformed => none
      | .row c => some c)

/-- Clock-bias correction added to every CTS value:
`timedelta(hours=1, minutes=59, seconds=59)`, i.e. 7199 seconds. -/
def ctsOffset : Nat := 7199

/-- `process_frame_data` (src/nvr.py lines 220-249): reads the log, corrects
the timestamps by the fixed offset, numbers the rows `0..N-1`, and resamples
to 2-minute intervals, returning the sampled row indices and their corrected
capture times; any of the failure modes raises instead. -/
def process_frame_data (f : LogFile) : Except PErr (List Nat × List Nat) :=
  if f.readable = false then .error .unreadable
  else if f.hasHeader = false then .error .emptyFile
  else if f.hasCTS = false then .error .noCTS
  else if (dataRows f.lines).any (fun c => c.isNone) then .error .unparsable
  else
    let ts := ((dataRows f.lines).filterMap id).map (fun t => t + ctsOffset)
    .ok (sampleIndices ts, sampleDates ts)

/-- Whether `process_frame_data` raises on the given file. -/
def parseFails (f : LogFile) : Bool :=
  match process_frame_data f with
  | .error _ => true
  | .ok _ => false

/-! ## Output records -/

/-- The `frame_date` column value of an output record: either a formatted
corrected capture time or the literal sentinel `"missing"` written by the
fallback extractor. -/
inductive FrameDate where
  | time (t : Nat)
  | missing
  deriving DecidableEq

/-- One row of the camera-day output table (`frame_number,frame_date`). -/
structure FrameRec where
  frame_number : Nat
  frame_date : FrameDate
  deriving DecidableEq

/-! ## Fallback stride arithmetic (`extract_frames_fallback`, src/nvr.py lines 580-597) -/

/-- Python `int()` applied to the nonnegative value `fps * 60 * interval_minutes`
(the code only reaches this after checking `fps > 0`): truncation, i.e.
numerator divided by denominator. -/
def pyIntPos (q : ℚ) : Nat := q.num.toNat / q.den

/-- `frames_per_interval = int(fps * 60 * interval_minutes)`. -/
def strideOf (fps : ℚ) (interval_minutes : Nat) : Nat :=
  pyIntPos (fps * 60 * (interval_minutes : ℚ))

/-- `range(0, total_frames, frames_per_interval)`: the frame indices the
fallback extractor attempts, namely `0, s, 2s, ...` while below `total`.
A zero stride makes `range` raise `ValueError`, which the surrounding
`try/except` turns into an empty extraction. -/
def strideIndices (total stride : Nat) : List Nat :=
  if stride = 0 then []
  else (List.range ((total + stride - 1) / stride)).map (fun k => k * stride)

/-! ## Camera-day run model (`main`, src/main.py lines 100-168) -/

/-- Resource events of one camera-day run: a source `cv2.VideoCapture` is
opened, a source capture is released, the shared output `cv2.VideoWriter`
is released. -/
inductive REvent where
  | openCap
  | relCap
  | relWriter
  deriving DecidableEq

/-- Mutable state threaded through the per-file loop of `main`: the running
output frame counter `fn`, whether the shared output video writer has been
created, the accumulated `all_frame_data` record list, and the trace of
resource events so far. -/
structure RunState where
  fn : Nat
  writer : Bool
  recs : List FrameRec
  trace : List REvent
  deriving DecidableEq

/-- One (video, log) file pair together with the oracles describing how the
external world behaves on it: the parsed log, whether the primary/fallback
`cv2.VideoCapture` opens, whether seeking-and-reading a given frame index
succeeds, whether either extractor raises before extracting anything (the
only exceptions that can escape, since the decode loops are wrapped in
`try/except`), and the video metadata the fallback reads. -/
structure Job where
  log : LogFile
  pOpenOk : Bool
  pRaises : Bool
  pDecode : Nat → Bool
  fRaises : Bool
  fOpenOk : Bool
  fps : ℚ
  total : Nat
  fDecode : Nat → Bool

/-- The shared decode-and-append loop of both extractors: for each candidate
`(frame index, date)` in order, try to read the frame; on success append it
to the output video and emit the record `{frame_number: fn, frame_date: date}`,
then increment `fn`; on failure skip the candidate and continue. -/
def writeFrames (decode : Nat → Bool) :
    List (Nat × FrameDate) → Nat → List FrameRec → Nat × List FrameRec
  | [], fn, recs => (fn, recs)
  | (i, d) :: rest, fn, recs =>
    if decode i then writeFrames decode rest (fn + 1) (recs ++ [⟨fn, d⟩])
    else writeFrames decode rest fn recs

/-- Records produced by numbering the dates of `items` consecutively from
`fn` (specification device for `writeFrames`). -/
def mkRecs (fn : Nat) : List (Nat × FrameDate) → List FrameRec
  | [] => []
  | (_, d) :: rest => ⟨fn, d⟩ :: mkRecs (fn + 1) rest

/-- Stable insertion of a sample into a list sorted by frame index; models
one step of Python's stable `sorted(..., key=lambda x: x[0])`. -/
def insertByFst (x : Nat × FrameDate) :
    List (Nat × FrameDate) → List (Nat × FrameDate)
  | [] => [x]
  | y :: t => if x.1 ≤ y.1 then x :: y :: t else y :: insertByFst x t

/-- Python's stable `sorted(zip(frame_numbers, frame_dates), key=lambda x: x[0])`. -/
def sortByFst : List (Nat × FrameDate) → List (Nat × FrameDate)
  | [] => []
  | x :: t => insertByFst x (sortByFst t)

/-- `extract_frames_to_video_and_csv` (src/nvr.py lines 350-459): open the
source video (returning unchanged state if it cannot be opened), create the
shared writer if absent, sort the samples by frame index, then run the
decode-and-append loop.  The function never releases the capture it opened:
its `finally` block only writes the CSV and logs performance. -/
def extract_frames_to_video_and_csv (j : Job) (samples : List (Nat × FrameDate))
    (st : RunState) : RunState :=
  if j.pOpenOk = false then st
  else
    let r := writeFrames j.pDecode (sortByFst samples) st.fn st.recs
    { fn := r.1, writer := true, recs := r.2,
      trace := st.trace ++ [REvent.openCap] }

/-- `extract_frames_fallback` (src/nvr.py lines 526-633): open the source
video (returning unchanged state on failure), create the shared writer if
absent, then — unless the reported fps or frame count is invalid, an early
return taken before the `try/finally` — walk the stream in strides of
`int(fps * 60 * 2)` frames, appending every successfully decoded frame with
the sentinel date, and release the capture in the `finally` block. -/
def extract_frames_fallback (j : Job) (st : RunState) : RunState :=
  if j.fOpenOk = false then st
  else if j.fps ≤ 0 ∨ j.total = 0 then
    { st with writer := true, trace := st.trace ++ [REvent.openCap] }
  else
    let idxs := strideIndices j.total (strideOf j.fps 2)
    let r := writeFrames j.fDecode (idxs.map (fun i => (i, FrameDate.missing)))
      st.fn st.recs
    { fn := r.1, writer := true, recs := r.2,
      trace := st.trace ++ [REvent.openCap, REvent.relCap] }

/-- One iteration of the per-file loop of `main` (src/main.py lines 105-155):
parse the log and run the primary extractor; if parsing raises, or the
primary extractor raises, fall back to `extract_frames_fallback`; if the
fallback raises too, the error is logged and the file contributes nothing. -/
def processFile (j : Job) (st : RunState) : RunState :=
  match process_frame_data j.log with
  | .ok p =>
    if j.pRaises then
      (if j.fRaises then st else extract_frames_fallback j st)
    else
      extract_frames_to_video_and_csv j (p.1.zip (p.2.map FrameDate.time)) st
  | .error _ => if j.fRaises then st else extract_frames_fallback j st

/-- The per-file loop of `main` over the file pairs of one camera-day. -/
def runFrom (st : RunState) : List Job → RunState
  | [] => st
  | j :: rest => runFrom (processFile j st) rest

/-- State at the start of a camera-day run: `fn = 0`, no writer, no records. -/
def initState : RunState := { fn := 0, writer := false, recs := [], trace := [] }

/-- One whole camera-day run (src/main.py lines 100-158): process every file
pair, then release the output writer if it was created (`if video_writer:
video_writer.release()`). -/
def runCameraDay (jobs : List Job) : RunState :=
  let st := runFrom initState jobs
  { st with trace := st.trace ++ (if st.writer then [REvent.relWriter] else []) }

/-! ## Per-job summary functions (specification devices) -/

/-- Candidates the fallback extractor successfully decodes for a job. -/
def fallbackKept (j : Job) : List (Nat × FrameDate) :=
  if j.fRaises then []
  else if j.fOpenOk = false then []
  else if j.fps ≤ 0 ∨ j.total = 0 then []
  else ((strideIndices j.total (strideOf j.fps 2)).map
    (fun i => (i, FrameDate.missing))).filter (fun q => j.fDecode q.1)

/-- Candidates a job turns into records, following the dispatch of
`processFile`. -/
def keptItems (j : Job) : List (Nat × FrameDate) :=
  match process_frame_data j.log with
  | .ok p =>
    if j.pRaises then fallbackKept j
    else if j.pOpenOk then
      (sortByFst (p.1.zip (p.2.map FrameDate.time))).filter
        (fun q => j.pDecode q.1)
    else []
  | .error _ => fallbackKept j

/-- Number of frames a job contributes to the run. -/
def contribCount (j : Job) : Nat := (keptItems j).length

/-- Resource events of the fallback extractor on a job. -/
def fallbackTrace (j : Job) : List REvent :=
  if j.fRaises then []
  else if j.fOpenOk = false then []
  else if j.fps ≤ 0 ∨ j.total = 0 then [REvent.openCap]
  else [REvent.openCap, REvent.relCap]

/-- Resource events of one per-file iteration. -/
def jobTrace (j : Job) : List REvent :=
  match process_frame_data j.log with
  | .ok _ =>
    if j.pRaises then fallbackTrace j
    else if j.pOpenOk then [REvent.openCap] else []
  | .error _ => fallbackTrace j

/-- Whether processing the job creates the shared writer when it does not
exist yet. -/
def opensWriter (j : Job) : Bool :=
  match process_frame_data j.log with
  | .ok _ =>
    if j.pRaises then (!j.fRaises && j.fOpenOk) else j.pOpenOk
  | .error _ => !j.fRaises && j.fOpenOk

/-- Concatenated kept candidates of a list of jobs. -/
def allKept : List Job → List (Nat × FrameDate)
  | [] => []
  | j :: rest => keptItems j ++ allKept rest

/-- Concatenated resource events of a list of jobs. -/
def allTrace : List Job → List REvent
  | [] => []
  | j :: rest => jobTrace j ++ allTrace rest

/-! ## Finalisation (`main`, src/main.py lines 160-179) -/

/-- Whether the output table file exists after the run: `main` writes the
CSV only when `all_frame_data` is non-empty (`if all_frame_data:`). -/
def csvAfter (csvBefore : Bool) (jobs : List Job) : Bool :=
  csvBefore || !(runCameraDay jobs).recs.isEmpty

/-- Whether the transfer step runs: `main` checks that both output files
exist before invoking the transfer and skips it otherwise.  The output video
file exists once the writer has been created. -/
def transferRuns (videoBefore csvBefore : Bool) (jobs : List Job) : Bool :=
  (videoBefore || (runCameraDay jobs).writer) && csvAfter csvBefore jobs

/-! ## File normaliser (`rename_mp4_files`, src/nvr.py lines 90-101) -/

/-- File names are lists of characters; a directory maps names to byte
sizes. -/
abbrev FName := List Char

/-- Directory contents: association list from file name to byte size. -/
abbrev Dir := List (FName × Nat)

/-- The pattern `'_0.mp4'` whose containment triggers a rename. -/
def pat0 : FName := "_0.mp4".toList

/-- The extension `'.mp4'` checked via `file.suffix == '.mp4'`. -/
def mp4ext : FName := ".mp4".toList

/-- Boolean list-prefix test. -/
def isPre : FName → FName → Bool
  | [], _ => true
  | _ :: _, [] => false
  | a :: as, b :: bs => a == b && isPre as bs

/-- Boolean substring test (`'_0.mp4' in str(file)`). -/
def hasSub (p : FName) : FName → Bool
  | [] => p.isEmpty
  | c :: t => isPre p (c :: t) || hasSub p t

/-- Boolean suffix test (`file.suffix == '.mp4'`). -/
def endsWithL (p s : FName) : Bool := isPre p.reverse s.reverse

/-- The condition of the rename loop:
`file.suffix == '.mp4' and '_0.mp4' in str(file)`. -/
def isRenameTarget (n : FName) : Bool := endsWithL mp4ext n && hasSub pat0 n

/-- Python `str.replace('_0.mp4', '.mp4')`: replace every leftmost
non-overlapping occurrence, with fuel bounded by the string length. -/
def replaceAllF : Nat → FName → FName
  | 0, s => s
  | _ + 1, [] => []
  | fuel + 1, c :: t =>
    if isPre pat0 (c :: t) then mp4ext ++ replaceAllF fuel (t.drop 5)
    else c :: replaceAllF fuel t

/-- `base_name.replace('_0.mp4', '.mp4')` applied to a file name. -/
def renamedName (n : FName) : FName := replaceAllF n.length n

/-- Effect of `file.rename(new_file)` on the directory: POSIX rename removes
any existing entry under the new name and moves the old entry to it. -/
def renameEntry (d : Dir) (old new : FName) : Dir :=
  (d.filter (fun e => !(e.1 == new))).map
    (fun e => if e.1 == old then (new, e.2) else e)

/-- `rename_mp4_files` (src/nvr.py lines 90-101): for every file of the
directory snapshot, if its name ends in `.mp4` and contains `_0.mp4`, rename
it to the name with every `_0.mp4` occurrence replaced by `.mp4`. -/
def rename_mp4_files (d : Dir) : Dir :=
  (d.map Prod.fst).foldl
    (fun cur n => if isRenameTarget n then renameEntry cur n (renamedName n) else cur)
    d

/-! ## Concrete instances used by witnesses and counterexamples -/

/-- A timestamp log that is readable, parses to a header with a `CTS` column,
and has zero data rows. -/
def logEmpty : LogFile := { readable := true, hasHeader := true, hasCTS := true, lines := [] }

/-- A file pair whose log cannot be read and whose video cannot be opened by
either extractor. -/
def jobBad : Job :=
  { log := { readable := false, hasHeader := true, hasCTS := true, lines := [] },
    pOpenOk := false, pRaises := false, pDecode := fun _ => false,
    fRaises := false, fOpenOk := false, fps := 0, total := 0,
    fDecode := fun _ => false }

/-- A file pair that parses (six log lines: one data row and five footer
lines), opens, and decodes every requested frame on the primary path. -/
def jobPrimary : Job :=
  { log := { readable := true, hasHeader := true, hasCTS := true,
             lines := [RawLine.row (some 0), RawLine.row (some 1),
                       RawLine.row (some 2), RawLine.row (some 3),
                       RawLine.row (some 4), RawLine.row (some 5)] },
    pOpenOk := true, pRaises := false, pDecode := fun _ => true,
    fRaises := false, fOpenOk := true, fps := 0, total := 0,
    fDecode := fun _ => true }

/-- A directory holding a canonical video of 1 byte and a `_1`-suffixed
sibling of 9 bytes. -/
def dirDup : Dir := [("a.mp4".toList, 1), ("a_1.mp4".toList, 9)]

/-- A directory holding a single file with a repeated `_0` suffix. -/
def dirDouble : Dir := [("a_0_0.mp4".toList, 7)]

/-- The reported frame rate 29.996 used to separate truncation from
rounding. -/
def cexFps : ℚ := 7499 / 250

/-! ## Structure lemmas for the run model -/

theorem writeFrames_eq (decode : Nat → Bool) (items : List (Nat × FrameDate))
    (fn : Nat) (recs : List FrameRec) :
    writeFrames decode items fn recs =
      (fn + (items.filter (fun q => decode q.1)).length,
       recs ++ mkRecs fn (items.filter (fun q => decode q.1))) := by
  induction items generalizing fn recs with
  | nil => simp [writeFrames, mkRecs]
  | cons x rest ih =>
    obtain ⟨i, d⟩ := x
    cases h : decode i with
    | true =>
      simp only [writeFrames, h, if_true, ih, List.filter_cons, mkRecs]
      refine Prod.ext ?_ ?_
      · simp [h]; omega
      · simp [h, mkRecs, List.append_assoc]
    | false =>
      simp only [writeFrames, h, ih, List.filter_cons]
      simp [h]

theorem mkRecs_length (fn : Nat) (l : List (Nat × FrameDate)) :
    (mkRecs fn l).length = l.length := by
  induction l generalizing fn with
  | nil => rfl
  | cons x t ih => obtain ⟨i, d⟩ := x; simp [mkRecs, ih]

theorem mkRecs_append (fn : Nat) (l1 l2 : List (Nat × FrameDate)) :
    mkRecs fn (l1 ++ l2) = mkRecs fn l1 ++ mkRecs (fn + l1.length) l2 := by
  induction l1 generalizing fn with
  | nil => simp [mkRecs]
  | cons x t ih =>
    obtain ⟨i, d⟩ := x
    have h : fn + 1 + t.length = fn + (t.length + 1) := by omega
    simp [mkRecs, ih, h]

theorem mkRecs_map_num (fn : Nat) (l : List (Nat × FrameDate)) :
    (mkRecs fn l).map FrameRec.frame_number = List.range' fn l.length := by
  induction l generalizing fn with
  | nil => rfl
  | cons x t ih => obtain ⟨i, d⟩ := x; simp [mkRecs, ih, List.range'_succ]

theorem fallback_eq (j : Job) (st : RunState) :
    extract_frames_fallback j st =
      { fn := st.fn + (fallbackKept j).length,
        writer := st.writer || j.fOpenOk,
        recs := st.recs ++ mkRecs st.fn (fallbackKept j),
        trace := st.trace ++ fallbackTrace j } ∨ j.fRaises = true := by
  by_cases hr : j.fRaises
  · exact Or.inr hr
  refine Or.inl ?_
  unfold extract_frames_fallback fallbackKept fallbackTrace
  by_cases ho : j.fOpenOk = false
  · simp [ho, hr, mkRecs]
  · have ho' : j.fOpenOk = true := by revert ho; cases j.fOpenOk <;> simp
    by_cases hv : j.fps ≤ 0 ∨ j.total = 0
    · simp [ho, ho', hv, hr, mkRecs]
    · simp only [ho, ho', hv, hr, if_false, if_true, Bool.or_true, writeFrames_eq]
      simp [mkRecs]

theorem processFile_eq (j : Job) (st : RunState) :
    processFile j st =
      { fn := st.fn + contribCount j,
        writer := st.writer || opensWriter j,
        recs := st.recs ++ mkRecs st.fn (keptItems j),
        trace := st.trace ++ jobTrace j } := by
  unfold processFile contribCount keptItems opensWriter jobTrace
  cases hp : process_frame_data j.log with
  | ok p =>
    by_cases hr : j.pRaises
    · simp only [hr, if_true]
      by_cases hf : j.fRaises
      · simp [hf, fallbackKept, fallbackTrace, mkRecs]
      · have hf' : j.fRaises = false := by revert hf; cases j.fRaises <;> simp
        have h := (fallback_eq j st).resolve_right (by simp [hf'])
        simp [hf', h]
    · simp only [hr, if_false]
      unfold extract_frames_to_video_and_csv
      by_cases ho : j.pOpenOk = false
      · simp [ho, hr, mkRecs]
      · have ho' : j.pOpenOk = true := by revert ho; cases j.pOpenOk <;> simp
        simp [ho', hr, writeFrames_eq, mkRecs_length]
  | error e =>
    by_cases hf : j.fRaises
    · simp [hf, fallbackKept, fallbackTrace, mkRecs]
    · have hf' : j.fRaises = false := by revert hf; cases j.fRaises <;> simp
      have h := (fallback_eq j st).resolve_right (by simp [hf'])
      simp [hf', h]

theorem runFrom_eq (jobs : List Job) (st : RunState) :
    runFrom st jobs =
      { fn := st.fn + (allKept jobs).length,
        writer := st.writer || jobs.any opensWriter,
        recs := st.recs ++ mkRecs st.fn (allKept jobs),
        trace := st.trace ++ allTrace jobs } := by
  induction jobs generalizing st with
  | nil => simp [runFrom, allKept, allTrace, mkRecs]
  | cons j rest ih =>
    show runFrom (processFile j st) rest = _
    rw [ih, processFile_eq]
    simp only [allKept, allTrace, List.any_cons, List.length_append, mkRecs_append,
      List.append_assoc, Bool.or_assoc, contribCount]
    congr 1
    omega

theorem allKept_length (jobs : List Job) :
    (allKept jobs).length = (jobs.map contribCount).sum := by
  induction jobs with
  | nil => rfl
  | cons j rest ih => simp [allKept, contribCount, ih]

theorem allKept_nil (jobs : List Job) (h : ∀ j ∈ jobs, contribCount j = 0) :
    allKept jobs = [] := by
  induction jobs with
  | nil => rfl
  | cons j rest ih =>
    have h1 : keptItems j = [] :=
      List.length_eq_zero.mp (h j (List.mem_cons_self j rest))
    have h2 : allKept rest = [] := ih (fun x hx => h x (List.mem_cons_of_mem j hx))
    simp [allKept, h1, h2]

theorem relWriter_not_in_fallbackTrace (j : Job) :
    REvent.relWriter ∉ fallbackTrace j := by
  unfold fallbackTrace
  split
  · simp
  · split
    · simp
    · split <;> simp

theorem relWriter_not_in_jobTrace (j : Job) :
    REvent.relWriter ∉ jobTrace j := by
  unfold jobTrace
  split
  · split
    · exact relWriter_not_in_fallbackTrace j
    · split <;> simp
  · exact relWriter_not_in_fallbackTrace j

theorem relWriter_count_allTrace (jobs : List Job) :
    (allTrace jobs).count REvent.relWriter = 0 := by
  induction jobs with
  | nil => rfl
  | cons j rest ih =>
    simp only [allTrace, List.count_append, ih, Nat.add_zero]
    exact List.count_eq_zero.mpr (relWriter_not_in_jobTrace j)

/-! ## Claim C1 -/

/-- C1 (counter continuity): for every camera-day run, over any sequence of
file pairs each contributing frames via the primary extractor, the fallback
extractor, or neither, the `frame_number` values of the accumulated record
list are exactly `0, 1, ..., K-1` in ascending order, where `K` is the final
value of the running counter `fn` and equals the number of records, because
the single counter is threaded through both extraction paths and incremented
exactly once per written frame. -/
theorem counter_continuity (jobs : List Job) :
    (runCameraDay jobs).recs.map FrameRec.frame_number
        = List.range (runCameraDay jobs).fn
    ∧ (runCameraDay jobs).fn = (runCameraDay jobs).recs.length := by
  unfold runCameraDay
  rw [runFrom_eq]
  simp [initState, mkRecs_map_num, mkRecs_length, List.range_eq_range']

/-! ## Claim C2 -/

/-- C2 (per-file fallback dispatch and no-abort): if parsing raises or the
primary extractor raises for a file, the orchestrator invokes the fallback
extractor for that one file; if the fallback also fails (raises, or its video
cannot be opened), the file contributes zero frames and zero records; the
loop always continues with the remaining files, and the final counter is the
sum of every file's contribution — no single bad file aborts the run. -/
theorem per_file_fallback_dispatch (j : Job) (rest : List Job) (st : RunState)
    (hfail : parseFails j.log = true ∨ j.pRaises = true) :
    (processFile j st = if j.fRaises then st else extract_frames_fallback j st)
    ∧ ((j.fRaises = true ∨ j.fOpenOk = false) →
        (processFile j st).fn = st.fn ∧ (processFile j st).recs = st.recs)
    ∧ runFrom st (j :: rest) = runFrom (processFile j st) rest
    ∧ (runCameraDay (j :: rest)).fn
        = contribCount j + (rest.map contribCount).sum := by
  have hdisp : processFile j st
      = if j.fRaises then st else extract_frames_fallback j st := by
    unfold processFile
    cases hp : process_frame_data j.log with
    | ok p =>
      rcases hfail with hf | hf
      · rw [parseFails, hp] at hf; cases hf
      · simp [hf]
    | error e => rfl
  refine ⟨hdisp, ?_, rfl, ?_⟩
  · intro hff
    rw [hdisp]
    rcases hff with hff | hff
    · simp [hff]
    · by_cases hr : j.fRaises
      · simp [hr]
      · simp only [hr, if_false]
        unfold extract_frames_fallback
        simp [hff]
  · unfold runCameraDay
    rw [runFrom_eq]
    simp [initState, allKept_length, allKept, contribCount]

/-- Witness for C2 at a concrete bad file: the log is unreadable, the
fallback video does not open, so the file contributes nothing. -/
theorem per_file_fallback_dispatch_witness :
    (processFile jobBad initState).fn = 0
    ∧ (processFile jobBad initState).recs = [] := by
  have h := (per_file_fallback_dispatch jobBad [] initState
    (Or.inl (by decide))).2.1 (Or.inr rfl)
  simpa [initState] using h

/-! ## Claim C10 -/

/-- C10 (table creation guarded on records): the output table file exists
after a fresh camera-day run exactly when at least one frame record was
produced; with an empty record list the CSV write is skipped and the
transfer step is skipped because the existence check fails.  In particular
a run in which every file contributes zero records creates no table and
transfers nothing. -/
theorem table_written_iff_records (jobs : List Job) :
    (csvAfter false jobs = true ↔ (runCameraDay jobs).recs ≠ [])
    ∧ ((runCameraDay jobs).recs = [] → transferRuns false false jobs = false)
    ∧ ((∀ j ∈ jobs, contribCount j = 0) →
        csvAfter false jobs = false ∧ transferRuns false false jobs = false) := by
  refine ⟨?_, ?_, ?_⟩
  · simp [csvAfter, List.isEmpty_iff]
  · intro h
    simp [transferRuns, csvAfter, h]
  · intro h
    have hrecs : (runCameraDay jobs).recs = [] := by
      unfold runCameraDay
      rw [runFrom_eq]
      simp [initState, allKept_nil jobs h, mkRecs]
    simp [transferRuns, csvAfter, hrecs]

/-- Witness for C10 at the empty run. -/
theorem table_written_iff_records_witness :
    csvAfter false [] = false ∧ transferRuns false false [] = false :=
  (table_written_iff_records []).2.2 (by simp)

/-! ## Renaming lemmas -/

theorem isPre_length (p s : FName) (h : isPre p s = true) : p.length ≤ s.length := by
  induction p generalizing s with
  | nil => simp
  | cons a as ih =>
    cases s with
    | nil => simp [isPre] at h
    | cons b bs =>
      simp only [isPre, Bool.and_eq_true] at h
      have := ih bs h.2
      simp
      omega

theorem replaceAllF_length_le (fuel : Nat) (s : FName) :
    (replaceAllF fuel s).length ≤ s.length := by
  induction fuel generalizing s with
  | zero => simp [replaceAllF]
  | succ n ih =>
    cases s with
    | nil => simp [replaceAllF]
    | cons c t =>
      unfold replaceAllF
      by_cases hp : isPre pat0 (c :: t)
      · have hlen : 6 ≤ (c :: t).length := isPre_length pat0 (c :: t) hp
        have h1 := ih (t.drop 5)
        simp only [hp, if_true, List.length_append, List.length_cons]
        have h2 : (t.drop 5).length = t.length - 5 := List.length_drop 5 t
        have h3 : (mp4ext).length = 4 := rfl
        simp only [List.length_cons] at hlen
        omega
      · have h1 := ih t
        simp only [hp, Bool.false_eq_true, if_false, List.length_cons]
        omega

theorem replaceAllF_length_lt (fuel : Nat) (s : FName)
    (hfuel : s.length ≤ fuel) (h : hasSub pat0 s = true) :
    (replaceAllF fuel s).length < s.length := by
  induction fuel generalizing s with
  | zero =>
    cases s with
    | nil => simp [hasSub, pat0] at h
    | cons c t => simp at hfuel
  | succ n ih =>
    cases s with
    | nil => simp [hasSub, pat0] at h
    | cons c t =>
      unfold replaceAllF
      by_cases hp : isPre pat0 (c :: t)
      · have hlen : 6 ≤ (c :: t).length := isPre_length pat0 (c :: t) hp
        have h1 := replaceAllF_length_le n (t.drop 5)
        simp only [hp, if_true, List.length_append, List.length_cons]
        have h2 : (t.drop 5).length = t.length - 5 := List.length_drop 5 t
        have h3 : (mp4ext).length = 4 := rfl
        simp only [List.length_cons] at hlen
        omega
      · have hsub : hasSub pat0 t = true := by
          simp only [hasSub, Bool.or_eq_true, hp] at h
          rcases h with h | h
          · cases h
          · exact h
        simp only [List.length_cons] at hfuel
        have h1 := ih t (by omega) hsub
        simp only [hp, Bool.false_eq_true, if_false, List.length_cons]
        omega

theorem renamedName_ne (n : FName) (h : hasSub pat0 n = true) :
    renamedName n ≠ n := by
  intro heq
  have := replaceAllF_length_lt n.length n (le_refl _) h
  rw [renamedName] at heq
  rw [heq] at this
  omega

theorem rename_foldl_noop (l : List FName) (acc : Dir)
    (h : ∀ n ∈ l, isRenameTarget n = false) :
    l.foldl
      (fun cur n => if isRenameTarget n then renameEntry cur n (renamedName n) else cur)
      acc = acc := by
  induction l generalizing acc with
  | nil => rfl
  | cons n rest ih =>
    have hn : isRenameTarget n = false := h n (List.mem_cons_self n rest)
    simp only [List.foldl_cons, hn, if_false]
    exact ih acc (fun x hx => h x (List.mem_cons_of_mem n hx))

/-! ## Claim C4 -/

/-- C4 counterexample: a directory with a canonical file of 1 byte and a
`_1`-suffixed file of 9 bytes is left untouched by `rename_mp4_files` — the
strictly larger `_1` file does not take the canonical name, so the claimed
size-based replacement policy does not hold. -/
theorem rename_ignores_sizes_cex :
    rename_mp4_files dirDup = dirDup
    ∧ (1 : Nat) < 9
    ∧ rename_mp4_files dirDup ≠ [("a.mp4".toList, 9)] := by
  refine ⟨by decide, by decide, by decide⟩

/-- C4 (amended): `rename_mp4_files` renames exactly the files whose name
ends in `.mp4` and contains `_0.mp4`, replacing every occurrence of `_0.mp4`
by `.mp4`; a directory with no such file — regardless of any `_1`-suffixed
siblings or of byte sizes — is left unchanged, and a single matching file is
renamed to its suffix-free name keeping its size. -/
theorem rename_policy (d : Dir) (n : FName) (s : Nat)
    (hall : ∀ e ∈ d, isRenameTarget e.1 = false)
    (hn : isRenameTarget n = true) :
    rename_mp4_files d = d
    ∧ rename_mp4_files [(n, s)] = [(renamedName n, s)] := by
  constructor
  · unfold rename_mp4_files
    apply rename_foldl_noop
    intro m hm
    obtain ⟨e, he, rfl⟩ := List.mem_map.mp hm
    exact hall e he
  · unfold rename_mp4_files
    simp only [List.map_cons, List.map_nil, List.foldl_cons, List.foldl_nil, hn, if_true]
    have hsub : hasSub pat0 n = true := by
      simp only [isRenameTarget, Bool.and_eq_true] at hn
      exact hn.2
    have hne : n ≠ renamedName n := Ne.symm (renamedName_ne n hsub)
    simp [renameEntry, hne]

/-- Witness for C4: the concrete duplicate directory is untouched, and a
lone `b_0.mp4` is renamed to `b.mp4`. -/
theorem rename_policy_witness :
    rename_mp4_files dirDup = dirDup
    ∧ rename_mp4_files [("b_0.mp4".toList, 5)]
        = [(renamedName "b_0.mp4".toList, 5)] :=
  rename_policy dirDup "b_0.mp4".toList 5 (by decide) (by decide)

/-! ## Claim C9 -/

/-- C9 counterexample: the directory `{a_0_0.mp4}` is normalised by one run
to `{a_0.mp4}` — a state reachable by one run of the rename step — and a
second run performs a further rename to `{a.mp4}`, so the rename step is not
idempotent. -/
theorem rename_not_idempotent :
    rename_mp4_files (rename_mp4_files dirDouble) ≠ rename_mp4_files dirDouble
    ∧ rename_mp4_files dirDouble = [("a_0.mp4".toList, 7)]
    ∧ rename_mp4_files [("a_0.mp4".toList, 7)] = [("a.mp4".toList, 7)] := by
  refine ⟨by decide, by decide, by decide⟩

/-- C9 (amended): the rename step is idempotent on directories whose
normalised state contains no file still matching the rename condition (name
ending in `.mp4` and containing `_0.mp4`); a second run then performs no
renames.  Names with repeated suffixes such as `a_0_0.mp4` violate this and
need one pass per repetition. -/
theorem rename_idempotent_when_clean (d : Dir)
    (h : ∀ e ∈ rename_mp4_files d, isRenameTarget e.1 = false) :
    rename_mp4_files (rename_mp4_files d) = rename_mp4_files d := by
  unfold rename_mp4_files
  apply rename_foldl_noop
  intro m hm
  obtain ⟨e, he, rfl⟩ := List.mem_map.mp hm
  exact h e he

/-- Witness for C9 on the already-clean duplicate directory. -/
theorem rename_idempotent_when_clean_witness :
    rename_mp4_files (rename_mp4_files dirDup) = rename_mp4_files dirDup :=
  rename_idempotent_when_clean dirDup (by decide)

/-! ## Claim C3 -/

/-- C3 counterexample: a readable log with a parsable header containing the
`CTS` column but zero data rows makes `process_frame_data` return normally
with empty lists — it does not raise, so the caller's primary path (not the
fallback) handles the file. -/
theorem parser_zero_rows_returns_ok :
    process_frame_data logEmpty = .ok ([], [])
    ∧ parseFails logEmpty = false :=
  ⟨rfl, rfl⟩

/-- C3 (amended): `process_frame_data` raises when the file cannot be read,
when it is completely empty, when the header lacks the `CTS` column, and
when a surviving data row has an unparsable timestamp; but a readable file
with a `CTS` header and zero valid data rows returns `([], [])` normally
instead of raising. -/
theorem parser_failure_modes (f : LogFile) :
    (f.readable = false → process_frame_data f = .error .unreadable)
    ∧ (f.readable = true → f.hasHeader = false →
        process_frame_data f = .error .emptyFile)
    ∧ (f.readable = true → f.hasHeader = true → f.hasCTS = false →
        process_frame_data f = .error .noCTS)
    ∧ (f.readable = true → f.hasHeader = true → f.hasCTS = true →
        (dataRows f.lines).any (fun c => c.isNone) = true →
        process_frame_data f = .error .unparsable)
    ∧ (f.readable = true → f.hasHeader = true → f.hasCTS = true →
        dataRows f.lines = [] → process_frame_data f = .ok ([], [])) := by
  refine ⟨?_, ?_, ?_, ?_, ?_⟩ <;> intros
  · simp_all [process_frame_data]
  · simp_all [process_frame_data]
  · simp_all [process_frame_data]
  · simp_all [process_frame_data]
  · simp_all [process_frame_data]
    exact ⟨rfl, rfl⟩

/-- Witness for C3 at concrete log files: an unreadable file raises, a file
with an unparsable timestamp raises. -/
theorem parser_failure_modes_witness :
    process_frame_data (LogFile.mk false true true []) = .error .unreadable
    ∧ process_frame_data (LogFile.mk true true true
        [RawLine.row none, RawLine.row (some 1), RawLine.row (some 2),
         RawLine.row (some 3), RawLine.row (some 4), RawLine.row (some 5)])
        = .error .unparsable :=
  ⟨(parser_failure_modes _).1 rfl,
   (parser_failure_modes _).2.2.2.1 rfl rfl rfl (by decide)⟩

/-! ## Claim C6 -/

/-- C6 counterexample: on the corrected series 00:00:00, 00:01:30, 00:02:10,
00:04:05 (seconds 0, 90, 130, 245) with the 2-minute interval, the sampler
returns the row at 00:04:05 as well — its bucket [00:04, 00:06) is non-empty
— so the output is `[0, 2, 3]`, not the claimed `[0, 2]`. -/
theorem sampler_scenario_cex :
    sampleIndices [0, 90, 130, 245] ≠ [0, 2]
    ∧ 3 ∈ sampleIndices [0, 90, 130, 245] := by
  refine ⟨by decide, by decide⟩

/-- C6 (amended): on the corrected series 00:00:00, 00:01:30, 00:02:10,
00:04:05 with the 2-minute interval, the sampler returns exactly the rows at
00:00:00, 00:02:10 and 00:04:05 (original indices 0, 2, 3) — the first row
of each non-empty 2-minute bucket — and not the row at 00:01:30. -/
theorem sampler_scenario_amended :
    sampleIndices [0, 90, 130, 245] = [0, 2, 3]
    ∧ 1 ∉ sampleIndices [0, 90, 130, 245] := by
  refine ⟨by decide, by decide⟩

/-! ## Stride arithmetic lemmas -/

theorem pyIntPos_eq_floor (q : ℚ) (hq : 0 ≤ q) : (pyIntPos q : ℤ) = ⌊q⌋ := by
  rw [Rat.floor_def]
  unfold pyIntPos
  have hnum : (0:ℤ) ≤ q.num := Rat.num_nonneg.mpr hq
  rw [Int.natCast_div, Int.toNat_of_nonneg hnum]

theorem strideOf_cast (fps : ℚ) (hf : 0 ≤ fps) :
    (strideOf fps 2 : ℤ) = ⌊fps * 60 * 2⌋ := by
  unfold strideOf
  have h2 : ((2 : Nat) : ℚ) = 2 := by norm_num
  rw [h2]
  exact pyIntPos_eq_floor _ (by positivity)

theorem mem_strideIndices (total s : Nat) (hs : s ≠ 0) (ht : 0 < total) (i : Nat) :
    i ∈ strideIndices total s ↔ s ∣ i ∧ i < total := by
  have hspos : 0 < s := Nat.pos_of_ne_zero hs
  have hK : (total + s - 1) / s = (total - 1) / s + 1 := by
    have h1 : total + s - 1 = (total - 1) + s := by omega
    rw [h1, Nat.add_div_right _ hspos]
  constructor
  · intro hi
    simp only [strideIndices, hs, if_false, List.mem_map, List.mem_range] at hi
    obtain ⟨k, hk, rfl⟩ := hi
    rw [hK] at hk
    have hk2 : k ≤ (total - 1) / s := by omega
    have hk3 : k * s ≤ total - 1 := (Nat.le_div_iff_mul_le hspos).mp hk2
    exact ⟨⟨k, (Nat.mul_comm k s)⟩, by omega⟩
  · rintro ⟨⟨k, rfl⟩, hlt⟩
    simp only [strideIndices, hs, if_false, List.mem_map, List.mem_range]
    refine ⟨k, ?_, by ring⟩
    rw [hK]
    have hk3 : k * s ≤ total - 1 := by
      have := Nat.mul_comm s k
      omega
    have hk2 : k ≤ (total - 1) / s := (Nat.le_div_iff_mul_le hspos).mpr hk3
    omega

theorem strideIndices_pairwise (total s : Nat) (hs : s ≠ 0) :
    (strideIndices total s).Pairwise (· < ·) := by
  have hspos : 0 < s := Nat.pos_of_ne_zero hs
  unfold strideIndices
  simp only [hs, if_false]
  refine List.Pairwise.map _ ?_ (List.pairwise_lt_range _)
  intro a b hab
  exact (Nat.mul_lt_mul_right hspos).mpr hab

/-! ## Claim C5 -/

/-- C5 counterexample: for the reported frame rate 29.996 the code computes
`int(fps * 60 * 2) = 3599` (truncation) while the claimed formula
`round(fps * 60 * 2)` gives 3600, so the stride is not `round(...)`. -/
theorem fallback_stride_cex :
    strideOf cexFps 2 = 3599
    ∧ round (cexFps * 60 * 2) = 3600
    ∧ (3599 : Nat) ≠ 3600 := by
  refine ⟨?_, ?_, by decide⟩
  · have h : (strideOf cexFps 2 : ℤ) = ⌊cexFps * 60 * 2⌋ :=
      strideOf_cast cexFps (by unfold cexFps; norm_num)
    have h2 : ⌊cexFps * 60 * 2⌋ = 3599 := by
      rw [Int.floor_eq_iff] <;> unfold cexFps <;> norm_num
    rw [h2] at h
    exact_mod_cast h
  · rw [round_eq, Int.floor_eq_iff] <;> unfold cexFps <;> norm_num

/-- C5 (amended): for every video with reported frame rate `fps > 0` and
frame count `total > 0`, the fallback stride is `int(fps * 60 * 2)`, i.e.
the floor (truncation) of `fps * 60 * interval_minutes` with
`interval_minutes = 2`; when that stride is non-zero the attempted frame
indices are exactly the multiples of the stride below `total`, in increasing
order (`0, stride, 2*stride, ...`). -/
theorem fallback_stride (fps : ℚ) (total : Nat) (hf : 0 < fps) (ht : 0 < total) :
    ((strideOf fps 2 : ℤ) = ⌊fps * 60 * 2⌋)
    ∧ (strideOf fps 2 ≠ 0 →
        ∀ i : Nat, i ∈ strideIndices total (strideOf fps 2)
          ↔ (strideOf fps 2 ∣ i ∧ i < total))
    ∧ (strideOf fps 2 ≠ 0 →
        (strideIndices total (strideOf fps 2)).Pairwise (· < ·)) := by
  refine ⟨strideOf_cast fps (le_of_lt hf), ?_, ?_⟩
  · intro hs i
    exact mem_strideIndices total _ hs ht i
  · intro hs
    exact strideIndices_pairwise total _ hs

/-- Witness for C5 at fps 30 and 7200 frames: the stride is 3600 and the
attempted indices are its multiples below 7200. -/
theorem fallback_stride_witness :
    (strideOf (30:ℚ) 2 : ℤ) = ⌊(30:ℚ) * 60 * 2⌋
    ∧ (3600 ∈ strideIndices 7200 (strideOf (30:ℚ) 2)
        ↔ (strideOf (30:ℚ) 2 ∣ 3600 ∧ 3600 < 7200)) := by
  have hstride : strideOf (30:ℚ) 2 = 3600 := by
    have h : (strideOf (30:ℚ) 2 : ℤ) = ⌊(30:ℚ) * 60 * 2⌋ :=
      strideOf_cast 30 (by norm_num)
    have h2 : ⌊(30:ℚ) * 60 * 2⌋ = 3600 := by
      rw [Int.floor_eq_iff] <;> norm_num
    rw [h2] at h
    exact_mod_cast h
  have h := fallback_stride 30 7200 (by norm_num) (by norm_num)
  exact ⟨h.1, h.2.1 (by rw [hstride]; decide) 3600⟩

/-! ## Claim C8 -/

/-- C8 counterexample: a file pair processed successfully by the primary
extractor (video opened, one frame decoded and recorded) leaves a trace with
the capture opened and never released — `extract_frames_to_video_and_csv`
has no `video_capture.release()` on any path. -/
theorem primary_capture_not_released :
    (processFile jobPrimary initState).trace = [REvent.openCap]
    ∧ REvent.relCap ∉ (processFile jobPrimary initState).trace
    ∧ (processFile jobPrimary initState).recs ≠ [] := by
  refine ⟨by decide, by decide, by decide⟩

/-- C8 (amended): the output writer is released exactly once, at the end of
the run, if and only if some file created it; the fallback extractor
releases its capture exactly once on its normal paths (valid metadata), but
not on the invalid-metadata early return; and the primary extractor never
releases the capture it opens. -/
theorem resource_release (j : Job) (jobs : List Job) :
    (parseFails j.log = false → j.pRaises = false →
        REvent.relCap ∉ jobTrace j)
    ∧ ((parseFails j.log = true ∨ j.pRaises = true) → j.fRaises = false →
        j.fOpenOk = true → ¬(j.fps ≤ 0 ∨ j.total = 0) →
        jobTrace j = [REvent.openCap, REvent.relCap])
    ∧ ((parseFails j.log = true ∨ j.pRaises = true) → j.fRaises = false →
        j.fOpenOk = true → (j.fps ≤ 0 ∨ j.total = 0) →
        jobTrace j = [REvent.openCap])
    ∧ ((runCameraDay jobs).trace
        = allTrace jobs ++ (if jobs.any opensWriter then [REvent.relWriter] else []))
    ∧ ((runCameraDay jobs).trace.count REvent.relWriter
        = if jobs.any opensWriter then 1 else 0) := by
  have htr : (runCameraDay jobs).trace
      = allTrace jobs ++ (if jobs.any opensWriter then [REvent.relWriter] else []) := by
    unfold runCameraDay
    rw [runFrom_eq]
    simp [initState]
  refine ⟨?_, ?_, ?_, htr, ?_⟩
  · intro hok hr
    unfold jobTrace
    cases hp : process_frame_data j.log with
    | ok p => by_cases ho : j.pOpenOk <;> simp [hr, ho]
    | error e => rw [parseFails, hp] at hok; cases hok
  · intro hfail hr ho hv
    unfold jobTrace
    cases hp : process_frame_data j.log with
    | ok p =>
      rcases hfail with h | h
      · rw [parseFails, hp] at h; cases h
      · simp [h, fallbackTrace, hr, ho, hv]
    | error e => simp [fallbackTrace, hr, ho, hv]
  · intro hfail hr ho hv
    unfold jobTrace
    cases hp : process_frame_data j.log with
    | ok p =>
      rcases hfail with h | h
      · rw [parseFails, hp] at h; cases h
      · simp [h, fallbackTrace, hr, ho, hv]
    | error e => simp [fallbackTrace, hr, ho, hv]
  · rw [htr, List.count_append, relWriter_count_allTrace]
    split <;> simp

/-- Witness for C8: a successfully parsed primary file has no capture
release in its trace, and the bad file (unreadable log, unopenable fallback)
contributes no events. -/
theorem resource_release_witness :
    REvent.relCap ∉ jobTrace jobPrimary :=
  (resource_release jobPrimary []).1 (by decide) rfl

/-! ## Sampler lemmas -/

theorem firstIdxGo_shift (b : Nat) (ts : List Nat) (k : Nat) :
    firstIdxGo b k ts = (firstIdxGo b 0 ts).map (fun i => i + k) := by
  induction ts generalizing k with
  | nil => simp [firstIdxGo]
  | cons t rest ih =>
    by_cases h : bucketOf t = b
    · simp [firstIdxGo, h]
    · simp only [firstIdxGo, h, if_false]
      rw [ih (k + 1), ih 1]
      cases firstIdxGo b 0 rest with
      | none => rfl
      | some i => simp; omega

theorem firstIdx_spec (ts : List Nat) (b i : Nat)
    (h : firstIdxInBucket ts b = some i) :
    i < ts.length ∧ bucketOf (ts.getD i 0) = b
      ∧ ∀ j, j < i → bucketOf (ts.getD j 0) ≠ b := by
  induction ts generalizing i with
  | nil => simp [firstIdxInBucket, firstIdxGo] at h
  | cons t rest ih =>
    unfold firstIdxInBucket firstIdxGo at h
    by_cases hb : bucketOf t = b
    · simp only [hb, if_true] at h
      have h0 : i = 0 := by
        have := Option.some.inj h
        omega
      subst h0
      refine ⟨by simp, by simpa using hb, ?_⟩
      intro j hj
      omega
    · simp only [hb, if_false] at h
      rw [firstIdxGo_shift] at h
      cases hrest : firstIdxGo b 0 rest with
      | none => rw [hrest] at h; simp at h
      | some i' =>
        rw [hrest] at h
        simp only [Option.map_some'] at h
        have hii : i = i' + 1 := by
          have := Option.some.inj h
          omega
        subst hii
        obtain ⟨h1, h2, h3⟩ := ih i' (by simpa [firstIdxInBucket] using hrest)
        refine ⟨by simp; omega, by simpa using h2, ?_⟩
        intro j hj
        cases j with
        | zero => simpa using hb
        | succ j' =>
          have := h3 j' (by omega)
          simpa using this

theorem firstIdx_exists (ts : List Nat) (b : Nat)
    (h : ∃ j, j < ts.length ∧ bucketOf (ts.getD j 0) = b) :
    ∃ i, firstIdxInBucket ts b = some i := by
  induction ts with
  | nil =>
    obtain ⟨j, hj, _⟩ := h
    simp at hj
  | cons t rest ih =>
    by_cases hb : bucketOf t = b
    · exact ⟨0, by simp [firstIdxInBucket, firstIdxGo, hb]⟩
    · obtain ⟨j, hj, hjb⟩ := h
      cases j with
      | zero =>
        simp at hjb
        exact absurd hjb hb
      | succ j' =>
        have hj' : j' < rest.length := by simp at hj; omega
        obtain ⟨i, hi⟩ := ih ⟨j', hj', by simpa using hjb⟩
        refine ⟨i + 1, ?_⟩
        unfold firstIdxInBucket firstIdxGo
        simp only [hb, if_false]
        rw [firstIdxGo_shift]
        rw [show firstIdxGo b 0 rest = some i from hi]
        rfl

theorem le_maxTime (ts : List Nat) (t : Nat) (h : t ∈ ts) : t ≤ maxTime ts := by
  induction ts with
  | nil => cases h
  | cons a rest ih =>
    unfold maxTime
    show t ≤ max a (rest.foldr max 0)
    rcases List.mem_cons.mp h with rfl | h2
    · exact le_max_left _ _
    · exact le_trans (ih h2) (le_max_right _ _)

theorem maxTime_mem (ts : List Nat) (h : ts ≠ []) : maxTime ts ∈ ts := by
  induction ts with
  | nil => cases h rfl
  | cons a rest ih =>
    unfold maxTime
    show max a (rest.foldr max 0) ∈ a :: rest
    cases rest with
    | nil => simp
    | cons b r2 =>
      rcases max_cases a ((b :: r2).foldr max 0) with ⟨heq, _⟩ | ⟨heq, _⟩
      · rw [heq]
        exact List.mem_cons_self _ _
      · rw [heq]
        exact List.mem_cons_of_mem a (ih (by simp))

theorem mem_usedBuckets_of (ts : List Nat) (b : Nat)
    (h : ∃ j, j < ts.length ∧ bucketOf (ts.getD j 0) = b) :
    b ∈ usedBuckets ts := by
  obtain ⟨j, hj, hjb⟩ := h
  have hmem : ts.getD j 0 ∈ ts := by
    rw [List.getD_eq_getElem ts 0 hj]
    exact List.getElem_mem hj
  unfold usedBuckets
  rw [List.mem_filter]
  constructor
  · rw [List.mem_range]
    have h1 : ts.getD j 0 ≤ maxTime ts := le_maxTime ts _ hmem
    have h2 : bucketOf (ts.getD j 0) ≤ bucketOf (maxTime ts) :=
      Nat.div_le_div_right h1
    omega
  · rw [List.any_eq_true]
    exact ⟨ts.getD j 0, hmem, beq_iff_eq.mpr hjb⟩

theorem filter_range_singleton (n b : Nat) (h : b < n) :
    (List.range n).filter (fun x => x == b) = [b] := by
  induction n with
  | zero => omega
  | succ m ih =>
    rw [List.range_succ, List.filter_append]
    by_cases hb : b = m
    · subst hb
      have h1 : (List.range b).filter (fun x => x == b) = [] := by
        rw [List.filter_eq_nil]
        intro x hx
        rw [List.mem_range] at hx
        simp
        omega
      simp [h1]
    · have h2 : b < m := by omega
      rw [ih h2]
      have hm : (m == b) = false := by
        simp
        omega
      simp [hm]

theorem pairwise_getD (ts : List Nat) (h : ts.Pairwise (· ≤ ·))
    (i j : Nat) (hij : i < j) (hj : j < ts.length) :
    ts.getD i 0 ≤ ts.getD j 0 := by
  rw [List.pairwise_iff_getElem] at h
  have hi : i < ts.length := lt_trans hij hj
  rw [List.getD_eq_getElem ts 0 hi, List.getD_eq_getElem ts 0 hj]
  exact h i j hi hj hij

/-! ## Claim C7 -/

/-- C7 (sampler bucket-first algorithm): for every series with monotonically
non-decreasing corrected timestamps and the 2-minute interval, the sampler
returns, for each non-empty bucket, exactly the original index of the first
(and, by monotonicity, earliest) row of that bucket: every sample is the
first row of its bucket and is minimal in time among its bucket's rows,
every non-empty bucket is represented, distinct samples lie in distinct
buckets, the empty series yields no samples, a non-empty series always
samples its first row, and a non-empty series contained in a single bucket
(shorter than one interval) yields exactly the sample `[0]`. -/
theorem sampler_bucket_first (ts : List Nat) (hmono : ts.Pairwise (· ≤ ·)) :
    (∀ i ∈ sampleIndices ts,
        i < ts.length
        ∧ (∀ j, j < i → bucketOf (ts.getD j 0) ≠ bucketOf (ts.getD i 0))
        ∧ (∀ j, j < ts.length → bucketOf (ts.getD j 0) = bucketOf (ts.getD i 0) →
            ts.getD i 0 ≤ ts.getD j 0))
    ∧ (∀ b, (∃ j, j < ts.length ∧ bucketOf (ts.getD j 0) = b) →
        ∃ i ∈ sampleIndices ts, i < ts.length ∧ bucketOf (ts.getD i 0) = b)
    ∧ (∀ i₁ ∈ sampleIndices ts, ∀ i₂ ∈ sampleIndices ts,
        bucketOf (ts.getD i₁ 0) = bucketOf (ts.getD i₂ 0) → i₁ = i₂)
    ∧ (ts = [] → sampleIndices ts = [])
    ∧ (ts ≠ [] → 0 ∈ sampleIndices ts)
    ∧ (ts ≠ [] → (∀ t ∈ ts, bucketOf t = bucketOf (ts.headD 0)) →
        sampleIndices ts = [0]) := by
  have hmem : ∀ i ∈ sampleIndices ts, ∃ b, firstIdxInBucket ts b = some i := by
    intro i hi
    rw [sampleIndices, List.mem_filterMap] at hi
    obtain ⟨b, _, hfb⟩ := hi
    exact ⟨b, hfb⟩
  refine ⟨?_, ?_, ?_, ?_, ?_, ?_⟩
  · intro i hi
    obtain ⟨b, hfb⟩ := hmem i hi
    obtain ⟨h1, h2, h3⟩ := firstIdx_spec ts b i hfb
    refine ⟨h1, ?_, ?_⟩
    · intro j hj
      rw [h2]
      exact h3 j hj
    · intro j hj hbj
      rcases lt_trichotomy j i with hlt | heq | hgt
      · exfalso
        exact h3 j hlt (by rw [hbj]; exact h2)
      · rw [heq]
      · exact pairwise_getD ts hmono i j hgt hj
  · intro b hb
    have hbu := mem_usedBuckets_of ts b hb
    obtain ⟨i, hi⟩ := firstIdx_exists ts b hb
    obtain ⟨h1, h2, _⟩ := firstIdx_spec ts b i hi
    refine ⟨i, ?_, h1, h2⟩
    rw [sampleIndices, List.mem_filterMap]
    exact ⟨b, hbu, hi⟩
  · intro i1 h1 i2 h2 heq
    obtain ⟨b1, hf1⟩ := hmem i1 h1
    obtain ⟨b2, hf2⟩ := hmem i2 h2
    have hb1 := (firstIdx_spec ts b1 i1 hf1).2.1
    have hb2 := (firstIdx_spec ts b2 i2 hf2).2.1
    have hbb : b1 = b2 := by rw [← hb1, ← hb2, heq]
    rw [hbb, hf2] at hf1
    exact (Option.some.inj hf1).symm
  · intro h
    rw [h]
    rfl
  · intro hne
    obtain ⟨t, rest, rfl⟩ := List.exists_cons_of_ne_nil hne
    rw [sampleIndices, List.mem_filterMap]
    refine ⟨bucketOf t, ?_, ?_⟩
    · apply mem_usedBuckets_of
      exact ⟨0, by simp, by simp⟩
    · simp [firstIdxInBucket, firstIdxGo]
  · intro hne hall
    obtain ⟨t, rest, rfl⟩ := List.exists_cons_of_ne_nil hne
    have hb0 : ∀ x ∈ t :: rest, bucketOf x = bucketOf t := by
      simpa using hall
    have hmax : bucketOf (maxTime (t :: rest)) = bucketOf t :=
      hb0 _ (maxTime_mem _ (by simp))
    have hused : usedBuckets (t :: rest) = [bucketOf t] := by
      unfold usedBuckets
      rw [hmax]
      have hcong :
          (List.range (bucketOf t + 1)).filter
              (fun b => (t :: rest).any (fun s => bucketOf s == b))
            = (List.range (bucketOf t + 1)).filter (fun b => b == bucketOf t) := by
        apply List.filter_congr
        intro x hx
        by_cases hxb : x = bucketOf t
        · have hany : (t :: rest).any (fun s => bucketOf s == x) = true := by
            rw [List.any_eq_true]
            exact ⟨t, List.mem_cons_self _ _, beq_iff_eq.mpr hxb.symm⟩
          rw [hany, beq_iff_eq.mpr hxb]
        · have hany : (t :: rest).any (fun s => bucketOf s == x) = false := by
            rw [List.any_eq_false]
            intro s hs
            rw [hb0 s hs]
            simp
            omega
          rw [hany]
          have : (x == bucketOf t) = false := by
            simp
            omega
          rw [this]
      rw [hcong]
      exact filter_range_singleton _ _ (by omega)
    rw [sampleIndices, hused]
    have hfirst : firstIdxInBucket (t :: rest) (bucketOf t) = some 0 := by
      simp [firstIdxInBucket, firstIdxGo]
    simp [hfirst]

/-- Witness for C7 on the concrete monotone series 0, 90, 130, 245: the
first row is sampled. -/
theorem sampler_bucket_first_witness :
    0 ∈ sampleIndices [0, 90, 130, 245] := by
  have h := sampler_bucket_first [0, 90, 130, 245] (by decide)
  exact h.2.2.2.2.1 (by decide)
